import Mathlib

/-!
Shallow embedding of the TTL key-value cache in `internal/cache/cache.go` of
the product-catalog service, together with proofs of its specified properties.

Modelling conventions:
* Time is an explicit `Int` argument: Go reads `time.Now().UnixNano()`, so
  every operation that consults the clock takes the current nanosecond count.
* Durations (`time.Duration`) are `Int` nanosecond counts.
* Go strings are `List Char`.
* The Go map `map[string]CacheItem` is modelled extensionally as a function
  `Str → Option CacheItem`; Go map read, write, delete and range-with-delete
  are the corresponding extensional operations.
* A method that may mutate its receiver returns the new state; `GetValueOp`
  returns the (unchanged) state paired with the result, and the Go result pair
  `(interface{}, bool)` is `Option GoValue` (`none` stands for `(nil, false)`).
* `interface{}` values stored in the cache are `GoValue`: either a byte slice
  produced by `json.Marshal` (`bytes`), an ordinary JSON-encodable in-memory
  value (`typed`), or a value `encoding/json` rejects (`nonEncodable`).
-/

namespace PCache

/-- Go `string`, as a list of characters. -/
abbrev Str := List Char

/-- Tokens of the serialized byte representation produced by the JSON codec
model (see `jsonMarshalBytes`). -/
inductive JTok where
  | tNull : JTok
  | tBool (b : Bool) : JTok
  | tNum (n : Int) : JTok
  | tStr (s : Str) : JTok
  | tArr (n : Nat) : JTok
  | tObj (n : Nat) : JTok
deriving DecidableEq, Repr

/-- JSON-encodable structured Go values: `nil`, booleans, numbers, strings,
slices and string-keyed maps/structs. -/
inductive Jval where
  | null : Jval
  | boolean (b : Bool) : Jval
  | num (n : Int) : Jval
  | str (s : Str) : Jval
  | arr (elems : List Jval) : Jval
  | obj (fields : List (Str × Jval)) : Jval

/-- A Go `interface{}` value as stored in the cache. -/
inductive GoValue where
  | bytes (data : List JTok) : GoValue
  | typed (j : Jval) : GoValue
  | nonEncodable (tag : String) : GoValue

/-- `CacheItem` from cache.go: a stored value with its absolute expiration
time in nanoseconds. -/
structure CacheItem where
  Value : GoValue
  Expiration : Int

/-- `Cache` from cache.go: the entry map and the default TTL (the `sync.RWMutex`
has no sequential content). -/
structure Cache where
  items : Str → Option CacheItem
  ttl : Int

/-- `Set` from cache.go: store `value` under `key`, expiring at
`now + (ttl if provided else c.ttl)`; `ttl` models the variadic
`ttl ...time.Duration` argument (`none` = absent). -/
def Cache.Set (c : Cache) (now : Int) (key : Str) (value : GoValue)
    (ttl : Option Int) : Cache :=
  let duration := ttl.getD c.ttl
  let expiration := now + duration
  { c with items := fun k =>
      if k = key then some ⟨value, expiration⟩ else c.items k }

/-- `GetValue` from cache.go, as a state transformer: the returned state is
the receiver after the call, the second component is the Go result
`(interface{}, bool)` collapsed to `Option GoValue`. An entry is a hit only
when it exists and `now > Expiration` is false. -/
def Cache.GetValueOp (c : Cache) (now : Int) (key : Str) :
    Cache × Option GoValue :=
  match c.items key with
  | none => (c, none)
  | some item => if now > item.Expiration then (c, none) else (c, some item.Value)

/-- The result component of `GetValueOp`. -/
def Cache.GetValue (c : Cache) (now : Int) (key : Str) : Option GoValue :=
  (c.GetValueOp now key).2

/-- `Delete` from cache.go. -/
def Cache.Delete (c : Cache) (key : Str) : Cache :=
  { c with items := fun k => if k = key then none else c.items k }

/-- The match condition of `DeleteByPrefix`:
`len(key) >= len(pre) && key[:len(pre)] == pre`. -/
def keyMatches (key pre : Str) : Bool :=
  decide (pre.length ≤ key.length) && (key.take pre.length == pre)

/-- `DeleteByPrefix` from cache.go: delete every key matching `pre`. -/
def Cache.DeleteByPrefix (c : Cache) (pre : Str) : Cache :=
  { c with items := fun k => if keyMatches k pre then none else c.items k }

/-- `Clear` from cache.go: replace the map with a fresh empty one. -/
def Cache.Clear (c : Cache) : Cache :=
  { c with items := fun _ => none }

/-- One pass of the `cleanupExpired` ticker body from cache.go: at time `now`,
delete every entry with `now > item.Expiration`. -/
def Cache.cleanupPass (c : Cache) (now : Int) : Cache :=
  { c with items := fun k =>
      match c.items k with
      | some item => if now > item.Expiration then none else some item
      | none => none }

/-- `Size` from cache.go is `len(c.items)`; on the extensional map it is not
used by any proof below, and the entry count of a concrete state is recovered
from an enumeration of its keys, so only the read-only character matters:
`Size` takes `RLock` and mutates nothing. -/
def Cache.SizeOp (c : Cache) : Cache × Unit := (c, ())

/-- The package-level globals of cache.go: `Instance *Cache` and the fired
state of `once sync.Once`. -/
structure Globals where
  Inst : Option Cache
  onceDone : Bool

/-- The process-start state: `Instance == nil`, `once` not yet fired. -/
def g0 : Globals := { Inst := none, onceDone := false }

/-- A fresh cache as built inside `once.Do`: empty map, the given default TTL. -/
def emptyCache (defaultTTL : Int) : Cache :=
  { items := fun _ => none, ttl := defaultTTL }

/-- `Init` from cache.go: `once.Do` creates the instance on the first call
and is a no-op afterwards; the function returns the global `Instance`. -/
def Init (g : Globals) (defaultTTL : Int) : Globals :=
  if g.onceDone then g
  else { Inst := some (emptyCache defaultTTL), onceDone := true }

/-- The `*Cache` returned by `Init`: the global `Instance` after `once.Do`. -/
def InitRet (g : Globals) (defaultTTL : Int) : Option Cache :=
  (Init g defaultTTL).Inst

/-- `5 * time.Minute` in nanoseconds. -/
def fiveMinutesNs : Int := 300000000000

/-- `Get` from cache.go: return `Instance` if non-nil, else `Init(5m)`. -/
def GetOp (g : Globals) : Globals × Option Cache :=
  match g.Inst with
  | none => (Init g fiveMinutesNs, InitRet g fiveMinutesNs)
  | some c => (g, some c)

/-! ### The JSON codec

`Marshal`/`Unmarshal` in cache.go delegate to `encoding/json`, which is not
part of this repository. Modelled from the spec: `putSerialized` "encodes
`structuredValue` into a canonical byte encoding (format is an implementation
choice)" and may fail with `EncodingError` on a non-encodable value;
`getSerialized` decodes the stored bytes and may fail with a `DecodingError`.
The byte encoding is realised as a self-delimiting token stream (`List JTok`):
an executable encoder below, and an executable decoder that is its inverse. -/

mutual

/-- Encoder of the codec model: preorder token stream of a structured value. -/
def encJ : Jval → List JTok
  | .null => [.tNull]
  | .boolean b => [.tBool b]
  | .num n => [.tNum n]
  | .str s => [.tStr s]
  | .arr xs => .tArr xs.length :: encArr xs
  | .obj fs => .tObj fs.length :: encObj fs

/-- Encoder, array elements. -/
def encArr : List Jval → List JTok
  | [] => []
  | x :: xs => encJ x ++ encArr xs

/-- Encoder, object fields (key token, then encoded value). -/
def encObj : List (Str × Jval) → List JTok
  | [] => []
  | (k, v) :: fs => .tStr k :: (encJ v ++ encObj fs)

end

mutual

/-- Node count of a structured value (a fuel bound for the decoder). -/
def sizeJ : Jval → Nat
  | .null => 1
  | .boolean _ => 1
  | .num _ => 1
  | .str _ => 1
  | .arr xs => 1 + sizeArr xs
  | .obj fs => 1 + sizeObj fs

/-- Node count, array elements. -/
def sizeArr : List Jval → Nat
  | [] => 0
  | x :: xs => sizeJ x + sizeArr xs

/-- Node count, object fields. -/
def sizeObj : List (Str × Jval) → Nat
  | [] => 0
  | (_, v) :: fs => sizeJ v + sizeObj fs

end

mutual

/-- Decoder of the codec model: read one value off the token stream, return
it with the unconsumed remainder; `none` on malformed input or fuel
exhaustion. Fuel goes down by one on every call, so the recursion is
structural and decoding computes by reduction. -/
def decJ : Nat → List JTok → Option (Jval × List JTok)
  | 0, _ => none
  | _ + 1, [] => none
  | f + 1, t :: rest =>
    match t with
    | .tNull => some (.null, rest)
    | .tBool b => some (.boolean b, rest)
    | .tNum n => some (.num n, rest)
    | .tStr s => some (.str s, rest)
    | .tArr n => (decArr f n rest).map (fun p => (.arr p.1, p.2))
    | .tObj n => (decObj f n rest).map (fun p => (.obj p.1, p.2))

/-- Decoder, `n` consecutive array elements. -/
def decArr : Nat → Nat → List JTok → Option (List Jval × List JTok)
  | _, 0, toks => some ([], toks)
  | 0, _ + 1, _ => none
  | f + 1, n + 1, toks =>
    (decJ f toks).bind fun p =>
      (decArr f n p.2).map fun q => (p.1 :: q.1, q.2)

/-- Decoder, `n` consecutive object fields. -/
def decObj : Nat → Nat → List JTok → Option (List (Str × Jval) × List JTok)
  | _, 0, toks => some ([], toks)
  | 0, _ + 1, _ => none
  | f + 1, n + 1, .tStr k :: toks =>
    (decJ f toks).bind fun p =>
      (decObj f n p.2).map fun q => ((k, p.1) :: q.1, q.2)
  | _ + 1, _ + 1, _ => none

end

mutual

/-- Fuel sufficient for `decJ` to decode the encoding of a value. -/
def needJ : Jval → Nat
  | .null => 1
  | .boolean _ => 1
  | .num _ => 1
  | .str _ => 1
  | .arr xs => 1 + needArr xs
  | .obj fs => 1 + needObj fs

/-- Fuel sufficient for `decArr`, array elements. -/
def needArr : List Jval → Nat
  | [] => 0
  | x :: xs => 1 + needJ x + needArr xs

/-- Fuel sufficient for `decObj`, object fields. -/
def needObj : List (Str × Jval) → Nat
  | [] => 0
  | (_, v) :: fs => 1 + needJ v + needObj fs

end

/-- Modelled from the spec: `json.Marshal` on an `interface{}` value.
Encodable structured values encode to their token stream; a `[]byte` value
encodes to a single JSON string determined by its contents (Go base64-encodes
byte slices); a non-encodable value (channel, function, ...) yields the
encoding error. -/
def jsonMarshalBytes : GoValue → Except String (List JTok)
  | .typed j => .ok (encJ j)
  | .bytes b => .ok [.tStr (reprStr b).data]
  | .nonEncodable tag => .error tag

/-- Modelled from the spec: `json.Unmarshal` of a byte slice into a target of
the matching shape; errors on malformed or trailing input. The fuel
`3 * data.length + 1` suffices for any well-formed stream (`needJ_le_sizeJ`
with `sizeJ_le_encJ_length`). -/
def jsonUnmarshalBytes (data : List JTok) : Except String Jval :=
  match decJ (3 * data.length + 1) data with
  | some (j, []) => .ok j
  | some (_, _ :: _) => .error "unexpected trailing data"
  | none => .error "malformed serialized data"

/-- `Marshal` from cache.go: encode, and on success store the byte slice via
`Set`; on encoding failure return the error without touching the cache. The
second component is the returned `error` (`none` = `nil`). -/
def Cache.Marshal (c : Cache) (now : Int) (key : Str) (value : GoValue)
    (ttl : Option Int) : Cache × Option String :=
  match jsonMarshalBytes value with
  | .error e => (c, some e)
  | .ok data => (c.Set now key (.bytes data) ttl, none)

/-- `Unmarshal` from cache.go: look the key up via `GetValue`; a miss or a
stored value that is not a byte slice yields `(false, nil)`; a decode failure
yields `(false, err)`; success yields `(true, nil)` and the decoded value
(the content written through the `target` pointer, `none` = target untouched). -/
def Cache.Unmarshal (c : Cache) (now : Int) (key : Str) :
    Bool × Option String × Option Jval :=
  match c.GetValue now key with
  | none => (false, none, none)
  | some v =>
    match v with
    | .bytes data =>
      match jsonUnmarshalBytes data with
      | .ok j => (true, none, some j)
      | .error e => (false, some e, none)
    | _ => (false, none, none)

/-! ### Codec round-trip -/

mutual

/-- With enough fuel, decoding an encoded value off the front of a stream
returns the value and the untouched remainder. -/
theorem decJ_encJ (f : Nat) (j : Jval) (r : List JTok) (h : needJ j ≤ f) :
    decJ f (encJ j ++ r) = some (j, r) := by
  cases j with
  | null =>
    cases f with
    | zero => simp [needJ] at h
    | succ f => simp [encJ, decJ]
  | boolean b =>
    cases f with
    | zero => simp [needJ] at h
    | succ f => simp [encJ, decJ]
  | num n =>
    cases f with
    | zero => simp [needJ] at h
    | succ f => simp [encJ, decJ]
  | str s =>
    cases f with
    | zero => simp [needJ] at h
    | succ f => simp [encJ, decJ]
  | arr xs =>
    cases f with
    | zero => simp [needJ] at h
    | succ f =>
      have hx : needArr xs ≤ f := by simp [needJ] at h; omega
      simp [encJ, decJ, decArr_encArr f xs r hx]
  | obj fs =>
    cases f with
    | zero => simp [needJ] at h
    | succ f =>
      have hx : needObj fs ≤ f := by simp [needJ] at h; omega
      simp [encJ, decJ, decObj_encObj f fs r hx]

/-- Decoding an encoded element list of the matching count succeeds. -/
theorem decArr_encArr (f : Nat) (xs : List Jval) (r : List JTok)
    (h : needArr xs ≤ f) :
    decArr f xs.length (encArr xs ++ r) = some (xs, r) := by
  cases xs with
  | nil => simp [encArr, decArr]
  | cons x xs =>
    cases f with
    | zero => simp [needArr] at h
    | succ f =>
      have hx : needJ x ≤ f := by simp [needArr] at h; omega
      have hxs : needArr xs ≤ f := by simp [needArr] at h; omega
      simp only [encArr, List.length_cons, List.append_assoc]
      rw [decArr, decJ_encJ f x (encArr xs ++ r) hx]
      simp [decArr_encArr f xs r hxs]

/-- Decoding an encoded field list of the matching count succeeds. -/
theorem decObj_encObj (f : Nat) (fs : List (Str × Jval)) (r : List JTok)
    (h : needObj fs ≤ f) :
    decObj f fs.length (encObj fs ++ r) = some (fs, r) := by
  cases fs with
  | nil => simp [encObj, decObj]
  | cons kv fs =>
    obtain ⟨k, v⟩ := kv
    cases f with
    | zero => simp [needObj] at h
    | succ f =>
      have hv : needJ v ≤ f := by simp [needObj] at h; omega
      have hfs : needObj fs ≤ f := by simp [needObj] at h; omega
      simp only [encObj, List.length_cons, List.cons_append, List.append_assoc]
      rw [decObj, decJ_encJ f v (encObj fs ++ r) hv]
      simp [decObj_encObj f fs r hfs]

end

mutual

/-- The decoder fuel bound, in terms of the node count. -/
theorem needJ_le_sizeJ (j : Jval) : needJ j + 2 ≤ 3 * sizeJ j := by
  cases j with
  | null => simp [needJ, sizeJ]
  | boolean b => simp [needJ, sizeJ]
  | num n => simp [needJ, sizeJ]
  | str s => simp [needJ, sizeJ]
  | arr xs =>
    have := needArr_le_sizeArr xs
    simp [needJ, sizeJ]; omega
  | obj fs =>
    have := needObj_le_sizeObj fs
    simp [needJ, sizeJ]; omega

/-- Fuel bound, array elements. -/
theorem needArr_le_sizeArr (xs : List Jval) : needArr xs ≤ 3 * sizeArr xs := by
  cases xs with
  | nil => simp [needArr, sizeArr]
  | cons x xs =>
    have h1 := needJ_le_sizeJ x
    have h2 := needArr_le_sizeArr xs
    simp [needArr, sizeArr]; omega

/-- Fuel bound, object fields. -/
theorem needObj_le_sizeObj (fs : List (Str × Jval)) :
    needObj fs ≤ 3 * sizeObj fs := by
  cases fs with
  | nil => simp [needObj, sizeObj]
  | cons kv fs =>
    obtain ⟨k, v⟩ := kv
    have h1 := needJ_le_sizeJ v
    have h2 := needObj_le_sizeObj fs
    simp [needObj, sizeObj]; omega

end

mutual

/-- The encoding is at least one token per node, so the stream length bounds
the fuel the decoder needs. -/
theorem sizeJ_le_encJ_length (j : Jval) : sizeJ j ≤ (encJ j).length := by
  cases j with
  | null => simp [sizeJ, encJ]
  | boolean b => simp [sizeJ, encJ]
  | num n => simp [sizeJ, encJ]
  | str s => simp [sizeJ, encJ]
  | arr xs =>
    have := sizeArr_le_encArr_length xs
    simp [sizeJ, encJ]; omega
  | obj fs =>
    have := sizeObj_le_encObj_length fs
    simp [sizeJ, encJ]; omega

/-- Length bound, array elements. -/
theorem sizeArr_le_encArr_length (xs : List Jval) :
    sizeArr xs ≤ (encArr xs).length := by
  cases xs with
  | nil => simp [sizeArr, encArr]
  | cons x xs =>
    have h1 := sizeJ_le_encJ_length x
    have h2 := sizeArr_le_encArr_length xs
    simp [sizeArr, encArr]; omega

/-- Length bound, object fields. -/
theorem sizeObj_le_encObj_length (fs : List (Str × Jval)) :
    sizeObj fs ≤ (encObj fs).length := by
  cases fs with
  | nil => simp [sizeObj, encObj]
  | cons kv fs =>
    obtain ⟨k, v⟩ := kv
    have h1 := sizeJ_le_encJ_length v
    have h2 := sizeObj_le_encObj_length fs
    simp [sizeObj, encObj]; omega

end

/-- The codec round-trip: decoding an encoded structured value recovers it. -/
theorem jsonRoundTrip (j : Jval) : jsonUnmarshalBytes (encJ j) = .ok j := by
  have hfuel : needJ j ≤ 3 * (encJ j).length + 1 := by
    have h1 := needJ_le_sizeJ j
    have h2 := sizeJ_le_encJ_length j
    omega
  have h1 : decJ (3 * (encJ j).length + 1) (encJ j ++ []) = some (j, []) :=
    decJ_encJ _ j [] hfuel
  rw [List.append_nil] at h1
  simp [jsonUnmarshalBytes, h1]

/-! ### General lemmas about the cache operations -/

/-- A read of an absent key misses. -/
theorem getValue_eq_none_of_absent (c : Cache) (now : Int) (k : Str)
    (h : c.items k = none) : c.GetValue now k = none := by
  simp [Cache.GetValue, Cache.GetValueOp, h]

/-- A read strictly after an entry's expiration misses. -/
theorem getValue_eq_none_of_expired (c : Cache) (now : Int) (k : Str)
    (item : CacheItem) (h1 : c.items k = some item)
    (h2 : item.Expiration < now) : c.GetValue now k = none := by
  simp [Cache.GetValue, Cache.GetValueOp, h1, h2]

/-- A read at or before an entry's expiration hits with the stored value. -/
theorem getValue_eq_some_of_live (c : Cache) (now : Int) (k : Str)
    (item : CacheItem) (h1 : c.items k = some item)
    (h2 : now ≤ item.Expiration) : c.GetValue now k = some item.Value := by
  simp [Cache.GetValue, Cache.GetValueOp, h1, not_lt.mpr h2]

/-- The code's deletion test holds exactly when the first `pre.length`
characters of `k` equal `pre`. -/
theorem keyMatches_iff (k pre : Str) :
    keyMatches k pre = true ↔ k.take pre.length = pre := by
  constructor
  · intro h
    simp [keyMatches] at h
    exact h.2
  · intro h
    have hlen : pre.length ≤ k.length := by
      have := congrArg List.length h
      simp [List.length_take] at this
      omega
    simp [keyMatches, hlen, h]

/-! ### Sample states used by counterexamples and witnesses -/

/-- A sample key. -/
def kA : Str := ['a']

/-- A sample entry expiring at time 100. -/
def itemAt100 : CacheItem := { Value := .typed .null, Expiration := 100 }

/-- A sample cache holding only `kA ↦ itemAt100`. -/
def cAt100 : Cache :=
  { items := fun k => if k = kA then some itemAt100 else none, ttl := 1000 }

/-- A sample cache with the spec's three keys `p:1`, `p:2`, `l:a`. -/
def sample3 : Cache :=
  { items := fun k =>
      if k = ['p', ':', '1'] then some { Value := .typed (.num 1), Expiration := 1000 }
      else if k = ['p', ':', '2'] then some { Value := .typed (.num 2), Expiration := 1000 }
      else if k = ['l', ':', 'a'] then some { Value := .typed (.str ['a']), Expiration := 1000 }
      else none,
    ttl := 1000 }

/-! ### The claims -/

/-- C1, counterexample: read at the exact expiration instant. `cAt100` stores
under `kA` an entry with `expiresAt = 100 ≤ t = 100`, yet `GetValue` at time
100 returns the stored value, not `(nil, false)`: the code misses only for
`now > Expiration` (strict), so the claim's `expiresAt <= t` bound fails at
the boundary instant. -/
theorem getValue_at_expiry_instant_cex :
    cAt100.items kA = some itemAt100 ∧ itemAt100.Expiration ≤ 100 ∧
    cAt100.GetValue 100 kA = some (.typed .null) ∧
    cAt100.GetValue 100 kA ≠ none := by
  refine ⟨rfl, le_refl _, rfl, ?_⟩
  intro hcontra
  have h : cAt100.GetValue 100 kA = some (GoValue.typed Jval.null) := rfl
  rw [h] at hcontra
  exact Option.noConfusion hcontra

/-- C1 (amended): for every key `k` and read time `t` at which the entry
stored for `k` has `expiresAt < t` (strictly past its expiration), `GetValue`
returns `(nil, false)`; likewise when no entry is stored (e.g. the sweeper
already removed it). At `t = expiresAt` the entry is still returned. -/
theorem getValue_expired_miss (c : Cache) (t : Int) (k : Str) :
    (∀ item, c.items k = some item → item.Expiration < t →
      c.GetValue t k = none) ∧
    (c.items k = none → c.GetValue t k = none) :=
  ⟨fun item h1 h2 => getValue_eq_none_of_expired c t k item h1 h2,
   fun h => getValue_eq_none_of_absent c t k h⟩

/-- C1, witness: the expired read at `t = 101 > 100` and the absent read both
miss on `cAt100`. -/
theorem getValue_expired_miss_witness :
    cAt100.GetValue 101 kA = none ∧ cAt100.GetValue 101 ['b'] = none :=
  ⟨(getValue_expired_miss cAt100 101 kA).1 itemAt100 rfl (by decide),
   (getValue_expired_miss cAt100 101 ['b']).2 rfl⟩

/-- C2: `Set` stores under `key` an entry whose value is `value` and whose
expiration is `now + (ttl if provided else defaultTTL)`, leaves every other
key and the default TTL unchanged (and, being total, has no error outcome);
after a second `Set` of `v2` with `ttl2`, the entry carries `v2` with the new
expiration and a `GetValue` before that expiration returns `v2`, never `v1`. -/
theorem set_overwrite_spec (c : Cache) (now : Int) (k : Str) (v : GoValue)
    (ttl : Option Int) :
    ((c.Set now k v ttl).items k = some ⟨v, now + ttl.getD c.ttl⟩) ∧
    (∀ k2, k2 ≠ k → (c.Set now k v ttl).items k2 = c.items k2) ∧
    ((c.Set now k v ttl).ttl = c.ttl) ∧
    (∀ v2 ttl2 now2 t, t ≤ now2 + ttl2.getD c.ttl →
      ((c.Set now k v ttl).Set now2 k v2 ttl2).items k
          = some ⟨v2, now2 + ttl2.getD c.ttl⟩ ∧
        ((c.Set now k v ttl).Set now2 k v2 ttl2).GetValue t k = some v2) := by
  refine ⟨by simp [Cache.Set], fun k2 h => by simp [Cache.Set, h], rfl,
    fun v2 ttl2 now2 t ht => ?_⟩
  have hitem : ((c.Set now k v ttl).Set now2 k v2 ttl2).items k
      = some ⟨v2, now2 + ttl2.getD c.ttl⟩ := by
    simp [Cache.Set]
  exact ⟨hitem, getValue_eq_some_of_live _ t k _ hitem ht⟩

/-- C2, witness: on an empty cache with default TTL 50, `Set` at time 0 with
no explicit TTL stores expiration 50; overwriting at time 5 with TTL 10
stores `v2` with expiration 15, and a read at time 15 returns `v2`. -/
theorem set_overwrite_spec_witness :
    ((emptyCache 50).Set 0 ['x'] (.typed (.num 1)) none).items ['x']
        = some ⟨.typed (.num 1), 50⟩ ∧
    (((emptyCache 50).Set 0 ['x'] (.typed (.num 1)) none).Set 5 ['x']
        (.typed (.num 2)) (some 10)).items ['x'] = some ⟨.typed (.num 2), 15⟩ ∧
    (((emptyCache 50).Set 0 ['x'] (.typed (.num 1)) none).Set 5 ['x']
        (.typed (.num 2)) (some 10)).GetValue 15 ['x']
        = some (.typed (.num 2)) := by
  have h := set_overwrite_spec (emptyCache 50) 0 ['x'] (.typed (.num 1)) none
  have h4 := h.2.2.2 (.typed (.num 2)) (some 10) 5 15 (by decide)
  exact ⟨h.1, h4.1, h4.2⟩

/-- C3: `DeleteByPrefix pre` removes exactly the keys whose first
`pre.length` characters equal `pre`, leaves every non-matching key's entry
unchanged and still retrievable (same `GetValue` result at any time), keeps
the default TTL, and — being total — has no error outcome when zero keys
match. -/
theorem deleteByPrefix_exact (c : Cache) (pre : Str) :
    (∀ k, k.take pre.length = pre → (c.DeleteByPrefix pre).items k = none) ∧
    (∀ k, k.take pre.length ≠ pre →
      (c.DeleteByPrefix pre).items k = c.items k) ∧
    ((c.DeleteByPrefix pre).ttl = c.ttl) ∧
    (∀ k t, k.take pre.length ≠ pre →
      (c.DeleteByPrefix pre).GetValue t k = c.GetValue t k) := by
  have hmem : ∀ k, k.take pre.length = pre →
      (c.DeleteByPrefix pre).items k = none := fun k h => by
    simp [Cache.DeleteByPrefix, (keyMatches_iff k pre).2 h]
  have hkeep : ∀ k, k.take pre.length ≠ pre →
      (c.DeleteByPrefix pre).items k = c.items k := fun k h => by
    have hfalse : keyMatches k pre = false := by
      rcases Bool.eq_false_or_eq_true (keyMatches k pre) with htr | hf
      · exact absurd ((keyMatches_iff k pre).1 htr) h
      · exact hf
    simp [Cache.DeleteByPrefix, hfalse]
  refine ⟨hmem, hkeep, rfl, fun k t h => ?_⟩
  unfold Cache.GetValue Cache.GetValueOp
  rw [hkeep k h]
  cases c.items k with
  | none => rfl
  | some item => by_cases hc : t > item.Expiration <;> simp [hc]

/-- C3, witness: with keys `p:1`, `p:2`, `l:a` cached, `DeleteByPrefix "p:"`
removes the first two and leaves `l:a` with an unchanged entry that is still
retrievable. -/
theorem deleteByPrefix_exact_witness :
    ((sample3.DeleteByPrefix ['p', ':']).items ['p', ':', '1'] = none) ∧
    ((sample3.DeleteByPrefix ['p', ':']).items ['p', ':', '2'] = none) ∧
    ((sample3.DeleteByPrefix ['p', ':']).items ['l', ':', 'a']
        = sample3.items ['l', ':', 'a']) ∧
    ((sample3.DeleteByPrefix ['p', ':']).GetValue 0 ['l', ':', 'a']
        = sample3.GetValue 0 ['l', ':', 'a']) := by
  have h := deleteByPrefix_exact sample3 ['p', ':']
  exact ⟨h.1 _ (by decide), h.1 _ (by decide), h.2.1 _ (by decide),
    h.2.2.2 _ 0 (by decide)⟩

/-- C4: for every JSON-encodable structured value `j`, `Marshal` returns
`nil`, and a following `Unmarshal` of the same key at any time `t` not past
the stored expiration returns `(true, nil)` with the decoded target equal to
the original value. -/
theorem marshal_unmarshal_roundtrip (c : Cache) (now : Int) (k : Str)
    (j : Jval) (ttl : Option Int) (t : Int)
    (ht : t ≤ now + ttl.getD c.ttl) :
    (c.Marshal now k (.typed j) ttl).2 = none ∧
    ((c.Marshal now k (.typed j) ttl).1).Unmarshal t k
      = (true, none, some j) := by
  have hmar : c.Marshal now k (.typed j) ttl
      = (c.Set now k (.bytes (encJ j)) ttl, none) := rfl
  refine ⟨by rw [hmar], ?_⟩
  rw [hmar]
  have hitem : (c.Set now k (.bytes (encJ j)) ttl).items k
      = some ⟨.bytes (encJ j), now + ttl.getD c.ttl⟩ := by
    simp [Cache.Set]
  have hget := getValue_eq_some_of_live _ t k _ hitem ht
  simp [Cache.Unmarshal, hget, jsonRoundTrip j]

/-- A sample structured value with nesting: an object holding an array and a
string. -/
def sampleJ : Jval := .obj [(['a'], .arr [.num 1, .null]), (['b'], .str ['z'])]

/-- C4, witness: storing `sampleJ` at time 0 on an empty cache with default
TTL 50 and reading it back at time 40 recovers it. -/
theorem marshal_unmarshal_roundtrip_witness :
    ((emptyCache 50).Marshal 0 ['x'] (.typed sampleJ) none).2 = none ∧
    (((emptyCache 50).Marshal 0 ['x'] (.typed sampleJ) none).1).Unmarshal
      40 ['x'] = (true, none, some sampleJ) :=
  marshal_unmarshal_roundtrip (emptyCache 50) 0 ['x'] sampleJ none 40 (by decide)

/-- C5, counterexample: a sweep pass at the exact expiration instant. The
entry under `kA` has `expiresAt = 100 ≤ now = 100`, yet `cleanupPass` at time
100 leaves it in the map: the code removes only entries with
`now > Expiration` (strict), so the claim's `expiresAt <= now` bound fails at
the boundary instant. -/
theorem cleanupPass_at_expiry_instant_cex :
    cAt100.items kA = some itemAt100 ∧ itemAt100.Expiration ≤ 100 ∧
    (cAt100.cleanupPass 100).items kA = some itemAt100 :=
  ⟨rfl, le_refl _, rfl⟩

/-- C5 (amended): a single sweep pass at time `now` removes every entry with
`expiresAt < now` (strictly expired), keeps every entry with
`now ≤ expiresAt` unchanged — so an entry with `expiresAt = now` survives
the pass — removes nothing that was absent, and preserves the default TTL. -/
theorem cleanupPass_spec (c : Cache) (now : Int) :
    (∀ k item, c.items k = some item → item.Expiration < now →
      (c.cleanupPass now).items k = none) ∧
    (∀ k item, c.items k = some item → now ≤ item.Expiration →
      (c.cleanupPass now).items k = some item) ∧
    (∀ k, c.items k = none → (c.cleanupPass now).items k = none) ∧
    ((c.cleanupPass now).ttl = c.ttl) :=
  ⟨fun k item h1 h2 => by simp [Cache.cleanupPass, h1, h2],
   fun k item h1 h2 => by simp [Cache.cleanupPass, h1, not_lt.mpr h2],
   fun k h => by simp [Cache.cleanupPass, h],
   rfl⟩

/-- C5, witness: sweeping `cAt100` at time 101 removes the entry expiring at
100; sweeping at time 100 keeps it; an absent key stays absent. -/
theorem cleanupPass_spec_witness :
    (cAt100.cleanupPass 101).items kA = none ∧
    (cAt100.cleanupPass 100).items kA = some itemAt100 ∧
    (cAt100.cleanupPass 101).items ['b'] = none :=
  ⟨(cleanupPass_spec cAt100 101).1 kA itemAt100 rfl (by decide),
   (cleanupPass_spec cAt100 100).2.1 kA itemAt100 rfl (by decide),
   (cleanupPass_spec cAt100 101).2.2.1 ['b'] rfl⟩

/-- C6: if encoding `v` fails, `Marshal` returns exactly that error and the
returned cache — entry map and default TTL — is precisely the input state,
so nothing was written; if encoding succeeds, `Marshal` returns `nil` (and
stores the encoded bytes via `Set`). -/
theorem marshal_error_frame (c : Cache) (now : Int) (k : Str) (v : GoValue)
    (ttl : Option Int) :
    (∀ e, jsonMarshalBytes v = .error e →
      c.Marshal now k v ttl = (c, some e)) ∧
    (∀ data, jsonMarshalBytes v = .ok data →
      c.Marshal now k v ttl = (c.Set now k (.bytes data) ttl, none)) :=
  ⟨fun e he => by simp [Cache.Marshal, he],
   fun data hd => by simp [Cache.Marshal, hd]⟩

/-- C6, witness: marshalling a non-encodable value (a channel, say) leaves
`cAt100` untouched and surfaces the error; marshalling `nil` succeeds. -/
theorem marshal_error_frame_witness :
    cAt100.Marshal 0 ['x'] (.nonEncodable "chan int") none
      = (cAt100, some "chan int") ∧
    cAt100.Marshal 0 ['x'] (.typed .null) none
      = (cAt100.Set 0 ['x'] (.bytes [.tNull]) none, none) :=
  ⟨(marshal_error_frame cAt100 0 ['x'] (.nonEncodable "chan int") none).1
      "chan int" rfl,
   (marshal_error_frame cAt100 0 ['x'] (.typed .null) none).2 [.tNull] rfl⟩

/-- C7: `Unmarshal` returns `(false, nil)` when the key is absent or its
entry is strictly expired; `(false, nil)` when a value is found but is not a
byte slice (silent miss); `(false, DecodingError)` when the stored bytes fail
to decode; and `(true, nil)` — with the decoded value — exactly when lookup
and decoding both succeed. -/
theorem unmarshal_outcomes (c : Cache) (now : Int) (k : Str) :
    (c.items k = none → c.Unmarshal now k = (false, none, none)) ∧
    (∀ item, c.items k = some item → item.Expiration < now →
      c.Unmarshal now k = (false, none, none)) ∧
    (∀ v, c.GetValue now k = some v → (∀ data, v ≠ .bytes data) →
      c.Unmarshal now k = (false, none, none)) ∧
    (∀ data e, c.GetValue now k = some (.bytes data) →
      jsonUnmarshalBytes data = .error e →
      c.Unmarshal now k = (false, some e, none)) ∧
    (∀ data j, c.GetValue now k = some (.bytes data) →
      jsonUnmarshalBytes data = .ok j →
      c.Unmarshal now k = (true, none, some j)) ∧
    ((c.Unmarshal now k).1 = true →
      ∃ data j, c.GetValue now k = some (.bytes data) ∧
        jsonUnmarshalBytes data = .ok j ∧
        c.Unmarshal now k = (true, none, some j)) := by
  refine ⟨fun h => ?_, fun item h1 h2 => ?_, fun v hv hnb => ?_,
    fun data e hv hd => ?_, fun data j hv hd => ?_, fun htrue => ?_⟩
  · simp [Cache.Unmarshal, getValue_eq_none_of_absent c now k h]
  · simp [Cache.Unmarshal, getValue_eq_none_of_expired c now k item h1 h2]
  · cases v with
    | bytes data => exact absurd rfl (hnb data)
    | typed j => simp [Cache.Unmarshal, hv]
    | nonEncodable tag => simp [Cache.Unmarshal, hv]
  · simp [Cache.Unmarshal, hv, hd]
  · simp [Cache.Unmarshal, hv, hd]
  · cases hget : c.GetValue now k with
    | none =>
      have hu : c.Unmarshal now k = (false, none, none) := by
        simp [Cache.Unmarshal, hget]
      rw [hu] at htrue
      simp at htrue
    | some v =>
      cases v with
      | bytes data =>
        cases hdec : jsonUnmarshalBytes data with
        | ok j => exact ⟨data, j, rfl, hdec, by simp [Cache.Unmarshal, hget, hdec]⟩
        | error e =>
          have hu : c.Unmarshal now k = (false, some e, none) := by
            simp [Cache.Unmarshal, hget, hdec]
          rw [hu] at htrue
          simp at htrue
      | typed j =>
        have hu : c.Unmarshal now k = (false, none, none) := by
          simp [Cache.Unmarshal, hget]
        rw [hu] at htrue
        simp at htrue
      | nonEncodable tag =>
        have hu : c.Unmarshal now k = (false, none, none) := by
          simp [Cache.Unmarshal, hget]
        rw [hu] at htrue
        simp at htrue

/-- A token stream no fuel can decode (an array announcing one element
followed by nothing). -/
def badBytes : List JTok := [.tArr 1]

/-- A sample cache covering every `Unmarshal` outcome at read time 50:
an expired byte entry, a typed (non-byte) entry, undecodable bytes, and a
well-formed byte entry. -/
def c7sample : Cache :=
  { items := fun k =>
      if k = ['e'] then some { Value := .bytes (encJ (.num 7)), Expiration := 10 }
      else if k = ['t'] then some { Value := .typed (.num 7), Expiration := 1000 }
      else if k = ['b'] then some { Value := .bytes badBytes, Expiration := 1000 }
      else if k = ['g'] then some { Value := .bytes (encJ (.num 7)), Expiration := 1000 }
      else none,
    ttl := 1000 }

/-- C7, witness: the five outcomes on `c7sample` at time 50. -/
theorem unmarshal_outcomes_witness :
    c7sample.Unmarshal 50 ['m'] = (false, none, none) ∧
    c7sample.Unmarshal 50 ['e'] = (false, none, none) ∧
    c7sample.Unmarshal 50 ['t'] = (false, none, none) ∧
    c7sample.Unmarshal 50 ['b'] = (false, some "malformed serialized data", none) ∧
    c7sample.Unmarshal 50 ['g'] = (true, none, some (.num 7)) ∧
    (∃ data j, c7sample.GetValue 50 ['g'] = some (.bytes data) ∧
      jsonUnmarshalBytes data = .ok j ∧
      c7sample.Unmarshal 50 ['g'] = (true, none, some j)) :=
  ⟨(unmarshal_outcomes c7sample 50 ['m']).1 rfl,
   (unmarshal_outcomes c7sample 50 ['e']).2.1 _ rfl (by decide),
   (unmarshal_outcomes c7sample 50 ['t']).2.2.1 (.typed (.num 7)) rfl
     (fun _ h => GoValue.noConfusion h),
   (unmarshal_outcomes c7sample 50 ['b']).2.2.2.1 badBytes _ rfl rfl,
   (unmarshal_outcomes c7sample 50 ['g']).2.2.2.2.1 (encJ (.num 7)) (.num 7) rfl rfl,
   (unmarshal_outcomes c7sample 50 ['g']).2.2.2.2.2 rfl⟩

/-- C8: `GetValue` has no side effect: for every state, time and key —
including a key whose entry is already expired — the state after the call is
exactly the state before, entry map and default TTL alike; in particular an
expired entry is not removed by the read. -/
theorem getValue_no_side_effect (c : Cache) (now : Int) (k : Str) :
    (c.GetValueOp now k).1 = c := by
  unfold Cache.GetValueOp
  cases c.items k with
  | none => rfl
  | some item => by_cases hc : now > item.Expiration <;> simp [hc]

/-- C9: from the process-start state, `Init d` creates the single instance
with default TTL `d`; every later `Init d2` returns the same state unchanged
(`d2` ignored, first caller wins), its TTL still `d`; `Get` returns the
existing instance when one exists and otherwise initializes one with the
hard-coded 5-minute default TTL. -/
theorem singleton_lifecycle :
    (∀ d : Int, Init g0 d = { Inst := some (emptyCache d), onceDone := true }) ∧
    (∀ g d d2, Init (Init g d) d2 = Init g d) ∧
    (∀ d d2, InitRet (Init g0 d) d2 = some (emptyCache d)) ∧
    (∀ g c, g.Inst = some c → GetOp g = (g, some c)) ∧
    (∀ g, g.Inst = none →
      GetOp g = (Init g fiveMinutesNs, InitRet g fiveMinutesNs)) ∧
    (GetOp g0 = (Init g0 fiveMinutesNs, some (emptyCache fiveMinutesNs))) := by
  refine ⟨fun d => rfl, fun g d d2 => ?_, fun d d2 => ?_,
    fun g c h => ?_, fun g h => ?_, rfl⟩
  · by_cases h : g.onceDone <;> simp [Init, h]
  · have h2 : Init (Init g0 d) d2 = Init g0 d := by
      by_cases h : g0.onceDone <;> simp [Init, h]
    simp [InitRet, h2, Init, g0]
  · cases g with
    | mk inst od => cases inst with
      | none => exact absurd h (by simp)
      | some c2 =>
        have : c2 = c := by simpa using h
        simp [GetOp, this]
  · cases g with
    | mk inst od => cases inst with
      | none => rfl
      | some c2 => exact absurd h (by simp)

/-- C9, witness: a second `Init` with a different TTL keeps the first TTL,
and `Get` on a populated state returns the existing instance. -/
theorem singleton_lifecycle_witness :
    InitRet (Init g0 7) 99 = some (emptyCache 7) ∧
    GetOp { Inst := some (emptyCache 7), onceDone := true }
      = ({ Inst := some (emptyCache 7), onceDone := true }, some (emptyCache 7)) :=
  ⟨singleton_lifecycle.2.2.1 7 99,
   singleton_lifecycle.2.2.2.1 { Inst := some (emptyCache 7), onceDone := true }
     (emptyCache 7) rfl⟩

/-- C10: `DeleteByPrefix` with the empty string equals `Clear`: both yield
the empty entry map and keep the default TTL unchanged. -/
theorem deleteByPrefix_empty_clears (c : Cache) :
    c.DeleteByPrefix [] = c.Clear ∧
    (∀ k, (c.DeleteByPrefix []).items k = none) ∧
    (∀ k, (c.Clear).items k = none) ∧
    (c.DeleteByPrefix []).ttl = c.ttl ∧
    (c.Clear).ttl = c.ttl := by
  have hall : ∀ k : Str, keyMatches k [] = true := fun k => by
    simp [keyMatches]
  refine ⟨?_, fun k => by simp [Cache.DeleteByPrefix, hall k], fun k => rfl,
    rfl, rfl⟩
  unfold Cache.DeleteByPrefix Cache.Clear
  congr 1
  funext k
  simp [hall k]

end PCache
